import Mathlib

/-!
Verification of the Fibonacci benchmark harness
(`concu_vs_parall.py` and `concu_vs_parall_with_patters.py`).

The Python code is shallowly embedded as follows.

* Python integers are `Int` (arbitrary precision in both languages).
* `fibonacci` / `fibonacci_naive` are the recursive functions from the
  two source files, translated clause by clause.
* The module-level `lru_cache(maxsize=None)` backing `fibonacci_memo` is
  made explicit: the cache is an association list threaded through the
  computation, looked up before the body runs and written after it
  returns, exactly as the decorator does.
* `list(executor.map(f, numbers))` collects results in submission order;
  it is embedded as `executorMap` (total compute function) and
  `executorMapE` (fallible compute function, where iterating the results
  re-raises the first exception in input order and nothing is returned).
* The `measure_time` decorator is embedded over an explicit clock state:
  `time.time()` pops the next reading from a stream, and the printed
  elapsed metric is appended to an output log.
-/

/-- Embedding of `fibonacci` from `concu_vs_parall.py`:
`if n <= 1: return n` then `return fibonacci(n - 1) + fibonacci(n - 2)`. -/
def fibonacci (n : Int) : Int :=
  if n <= 1 then n
  else fibonacci (n - 1) + fibonacci (n - 2)
termination_by n.toNat
decreasing_by
  all_goals omega

/-- Embedding of `fibonacci_naive` from `concu_vs_parall_with_patters.py`;
textually the same recursion as `fibonacci`. -/
def fibonacci_naive (n : Int) : Int :=
  if n <= 1 then n
  else fibonacci_naive (n - 1) + fibonacci_naive (n - 2)
termination_by n.toNat
decreasing_by
  all_goals omega

theorem fibonacci_eq (n : Int) :
    fibonacci n =
      if n <= 1 then n
      else fibonacci (n - 1) + fibonacci (n - 2) := by
  rw [fibonacci]

theorem fibonacci_naive_eq (n : Int) :
    fibonacci_naive n =
      if n <= 1 then n
      else fibonacci_naive (n - 1) + fibonacci_naive (n - 2) := by
  rw [fibonacci_naive]

theorem fibonacci_eq_naive (n : Int) : fibonacci n = fibonacci_naive n := by
  induction n using fibonacci_naive.induct with
  | case1 x hx => rw [fibonacci_eq, fibonacci_naive_eq, if_pos hx, if_pos hx]
  | case2 x hx ih1 ih2 =>
    rw [fibonacci_eq, fibonacci_naive_eq, if_neg hx, if_neg hx, ih1, ih2]

/-- Modelled from the spec: the independent, non-recursive oracle used only
by the test suite ("closed-form is computed via an independent,
non-recursive method (e.g., iterative accumulation)").  `fibIterAux n`
is the pair `(F n, F (n+1))` built by iterative accumulation. -/
def fibIterAux : Nat → Int × Int
  | 0 => (0, 1)
  | k + 1 => ((fibIterAux k).2, (fibIterAux k).1 + (fibIterAux k).2)

/-- Modelled from the spec: the iterative closed-form oracle. -/
def fib_iter (n : Nat) : Int := (fibIterAux n).1

theorem fib_iter_succ_succ (n : Nat) :
    fib_iter (n + 2) = fib_iter n + fib_iter (n + 1) := by
  simp [fib_iter, fibIterAux]

theorem fib_agree_pair (n : Nat) :
    fibonacci_naive (n : Int) = fib_iter n ∧
      fibonacci_naive ((n + 1 : Nat) : Int) = fib_iter (n + 1) := by
  induction n with
  | zero =>
    constructor
    · rw [fibonacci_naive_eq]; norm_num [fib_iter, fibIterAux]
    · rw [fibonacci_naive_eq]; norm_num [fib_iter, fibIterAux]
  | succ k ih =>
    refine ⟨ih.2, ?_⟩
    rw [fibonacci_naive_eq]
    rw [if_neg (by push_cast; omega)]
    have e1 : ((k + 2 : Nat) : Int) - 1 = ((k + 1 : Nat) : Int) := by
      push_cast; ring
    have e2 : ((k + 2 : Nat) : Int) - 2 = ((k : Nat) : Int) := by
      push_cast; ring
    rw [e1, e2, ih.1, ih.2, fib_iter_succ_succ]
    ring

theorem fib_naive_eq_iter (n : Int) (h : 0 <= n) :
    fibonacci_naive n = fib_iter n.toNat := by
  have hn : n = ((n.toNat : Nat) : Int) := by omega
  rw [hn]
  exact (fib_agree_pair n.toNat).1

/-- The memoization cache of `lru_cache(maxsize=None)`, made explicit as an
association list from arguments to previously computed results. -/
abbrev Cache := List (Int × Int)

def cacheLookup : Cache → Int → Option Int
  | [], _ => none
  | (k, v) :: rest, n => if n = k then some v else cacheLookup rest n

/-- Embedding of `fibonacci_memo` from `concu_vs_parall_with_patters.py`:
the `lru_cache` decorator first consults the cache for `n`; on a hit it
returns the stored value without running the body; on a miss it runs the
same recursive body as the naive version (each recursive call again going
through the cache, left argument first) and stores the result under `n`. -/
def fibonacci_memo (n : Int) (c : Cache) : Int × Cache :=
  match cacheLookup c n with
  | some v => (v, c)
  | none =>
    if n <= 1 then (n, (n, n) :: c)
    else
      let r1 := fibonacci_memo (n - 1) c
      let r2 := fibonacci_memo (n - 2) r1.2
      (r1.1 + r2.1, (n, r1.1 + r2.1) :: r2.2)
termination_by n.toNat
decreasing_by
  all_goals omega

theorem fibonacci_memo_eq (n : Int) (c : Cache) :
    fibonacci_memo n c =
      match cacheLookup c n with
      | some v => (v, c)
      | none =>
        if n <= 1 then (n, (n, n) :: c)
        else
          let r1 := fibonacci_memo (n - 1) c
          let r2 := fibonacci_memo (n - 2) r1.2
          (r1.1 + r2.1, (n, r1.1 + r2.1) :: r2.2) := by
  rw [fibonacci_memo]

/-- A cache is consistent when every stored entry is the value the naive
function would compute.  The empty cache is trivially consistent, and
`fibonacci_memo` preserves consistency, so every cache arising in an
actual run is consistent. -/
def Consistent (c : Cache) : Prop :=
  ∀ k v, cacheLookup c k = some v → v = fibonacci_naive k

theorem consistent_nil : Consistent [] := by
  intro k v h
  cases h

/-- A cache entry, once written, is never changed and never evicted by a
`fibonacci_memo` call: any lookup that succeeded before the call returns
the same value after it. -/
theorem memo_preserves (n : Int) (c : Cache) (k v : Int)
    (h : cacheLookup c k = some v) :
    cacheLookup (fibonacci_memo n c).2 k = some v := by
  induction n, c using fibonacci_memo.induct with
  | case1 n c w hw => rw [fibonacci_memo_eq, hw]; exact h
  | case2 n c hw hn =>
    rw [fibonacci_memo_eq, hw]
    simp only [if_pos hn, cacheLookup]
    by_cases hk : k = n
    · subst hk; rw [h] at hw; cases hw
    · rw [if_neg hk]; exact h
  | case3 n c hw hn r1 ih1 ih2 =>
    rw [fibonacci_memo_eq, hw]
    simp only [if_neg hn, cacheLookup]
    by_cases hk : k = n
    · subst hk; rw [h] at hw; cases hw
    · rw [if_neg hk]
      exact ih2 (ih1 h)

/-- On a consistent cache, `fibonacci_memo` returns exactly the naive value
and leaves the cache consistent. -/
theorem memo_correct (n : Int) (c : Cache) (hc : Consistent c) :
    (fibonacci_memo n c).1 = fibonacci_naive n ∧
      Consistent (fibonacci_memo n c).2 := by
  induction n, c using fibonacci_memo.induct with
  | case1 n c w hw =>
    rw [fibonacci_memo_eq, hw]
    exact ⟨hc n w hw ▸ rfl, hc⟩
  | case2 n c hw hn =>
    rw [fibonacci_memo_eq, hw]
    simp only [if_pos hn]
    constructor
    · rw [fibonacci_naive_eq, if_pos hn]
    · intro k v hkv
      simp only [cacheLookup] at hkv
      by_cases hk : k = n
      · subst hk
        rw [if_pos rfl] at hkv
        cases hkv
        rw [fibonacci_naive_eq, if_pos hn]
      · rw [if_neg hk] at hkv
        exact hc k v hkv
  | case3 n c hw hn r1 ih1 ih2 =>
    obtain ⟨h1, hc1⟩ := ih1 hc
    obtain ⟨h2, hc2⟩ := ih2 hc1
    rw [fibonacci_memo_eq, hw]
    simp only [if_neg hn]
    constructor
    · rw [fibonacci_naive_eq, if_neg hn, h1, h2]
    · intro k v hkv
      simp only [cacheLookup] at hkv
      by_cases hk : k = n
      · subst hk
        rw [if_pos rfl] at hkv
        cases hkv
        rw [fibonacci_naive_eq, if_neg hn, h1, h2]
      · rw [if_neg hk] at hkv
        exact hc2 k v hkv

/-- Embedding of `list(executor.map(f, numbers))` for a total compute
function: both `ThreadPoolExecutor.map` and `ProcessPoolExecutor.map`
yield results in submission order, whatever order workers complete in. -/
def executorMap (f : Int → Int) (numbers : List Int) : List Int :=
  numbers.map f

/-- Embedding of `multi_threaded_fibonacci` from `concu_vs_parall.py`. -/
def multi_threaded_fibonacci (numbers : List Int) : List Int :=
  executorMap fibonacci numbers

/-- Embedding of `multi_process_fibonacci` from `concu_vs_parall.py`. -/
def multi_process_fibonacci (numbers : List Int) : List Int :=
  executorMap fibonacci numbers

/-- Embedding of `multi_threaded_fibonacci_naive` from
`concu_vs_parall_with_patters.py`. -/
def multi_threaded_fibonacci_naive (numbers : List Int) : List Int :=
  executorMap fibonacci_naive numbers

/-- Embedding of `multi_process_fibonacci_naive` from
`concu_vs_parall_with_patters.py`. -/
def multi_process_fibonacci_naive (numbers : List Int) : List Int :=
  executorMap fibonacci_naive numbers

/-- `list(executor.map(fibonacci_memo, numbers))` with the one cache all
worker threads share: the cache state is threaded through the tasks in
submission order. -/
def mapMemoShared : List Int → Cache → List Int × Cache
  | [], c => ([], c)
  | n :: rest, c =>
    let r := fibonacci_memo n c
    let rr := mapMemoShared rest r.2
    (r.1 :: rr.1, rr.2)

/-- Embedding of `multi_threaded_fibonacci_memo` from
`concu_vs_parall_with_patters.py`: all threads share the single
module-level `lru_cache` instance of their address space. -/
def multi_threaded_fibonacci_memo (numbers : List Int) (c : Cache) :
    List Int × Cache :=
  mapMemoShared numbers c

/-- `list(executor.map(fibonacci_memo, numbers))` over a process pool:
each worker process `p` owns a private cache `st p`, and `assign i` names
the process that task `i` lands on (the pool does not fix this).  Tasks
are listed with their submission index, results come back in submission
order. -/
def mapMemoProcs (assign : Nat → Nat) :
    List Int → Nat → (Nat → Cache) → List Int × (Nat → Cache)
  | [], _, st => ([], st)
  | n :: rest, i, st =>
    let p := assign i
    let r := fibonacci_memo n (st p)
    let st1 := fun q => if q = p then r.2 else st q
    let rr := mapMemoProcs assign rest (i + 1) st1
    (r.1 :: rr.1, rr.2)

/-- Embedding of `multi_process_fibonacci_memo` from
`concu_vs_parall_with_patters.py`, parametric in the task-to-process
assignment and the initial per-process caches. -/
def multi_process_fibonacci_memo (numbers : List Int) (assign : Nat → Nat)
    (st : Nat → Cache) : List Int × (Nat → Cache) :=
  mapMemoProcs assign numbers 0 st

theorem mapMemoShared_correct (numbers : List Int) (c : Cache)
    (hc : Consistent c) :
    (mapMemoShared numbers c).1 = numbers.map fibonacci_naive ∧
      Consistent (mapMemoShared numbers c).2 := by
  induction numbers generalizing c with
  | nil => exact ⟨rfl, hc⟩
  | cons n rest ih =>
    obtain ⟨h1, hc1⟩ := memo_correct n c hc
    obtain ⟨h2, hc2⟩ := ih (fibonacci_memo n c).2 hc1
    simp only [mapMemoShared, List.map_cons]
    exact ⟨by rw [h1, h2], hc2⟩

theorem mapMemoProcs_correct (assign : Nat → Nat) (numbers : List Int)
    (i : Nat) (st : Nat → Cache) (hst : ∀ p, Consistent (st p)) :
    (mapMemoProcs assign numbers i st).1 = numbers.map fibonacci_naive ∧
      ∀ p, Consistent ((mapMemoProcs assign numbers i st).2 p) := by
  induction numbers generalizing i st with
  | nil => exact ⟨rfl, hst⟩
  | cons n rest ih =>
    obtain ⟨h1, hc1⟩ := memo_correct n (st (assign i)) (hst (assign i))
    have hst1 : ∀ p, Consistent
        (if p = assign i then (fibonacci_memo n (st (assign i))).2
          else st p) := by
      intro p
      by_cases hp : p = assign i
      · simp only [hp, if_pos rfl]; exact hc1
      · simp only [if_neg hp]; exact hst p
    obtain ⟨h2, hc2⟩ := ih (i + 1) _ hst1
    simp only [mapMemoProcs, List.map_cons]
    exact ⟨by rw [h1, h2], hc2⟩

/-- A cache entry surviving a whole shared-cache batch unchanged: batch
version of `memo_preserves`. -/
theorem mapMemoShared_preserves (numbers : List Int) (c : Cache)
    (k v : Int) (h : cacheLookup c k = some v) :
    cacheLookup (mapMemoShared numbers c).2 k = some v := by
  induction numbers generalizing c with
  | nil => exact h
  | cons n rest ih =>
    simp only [mapMemoShared]
    exact ih (fibonacci_memo n c).2 (memo_preserves n c k v h)

/-- Embedding of `list(executor.map(f, numbers))` for a compute function
that may raise: results are iterated in submission order and the first
exception encountered is re-raised by the iteration, so the surrounding
`list(...)` produces no list at all.  The propagated error is the
worker's own exception object, unchanged. -/
def executorMapE (f : Int → Except String Int) :
    List Int → Except String (List Int)
  | [] => Except.ok []
  | n :: rest =>
    match f n with
    | Except.error e => Except.error e
    | Except.ok v =>
      match executorMapE f rest with
      | Except.error e => Except.error e
      | Except.ok vs => Except.ok (v :: vs)

/-- Modelled from the spec: the test harness's failure-injected compute
function ("999999 triggers injected failure in test harness"); no such
harness exists in the repository, so it is taken verbatim from the
spec's scenario 4: it fails on input 999999 and otherwise behaves as the
naive compute function. -/
def compute_inj (n : Int) : Except String Int :=
  if n = 999999 then Except.error "injected failure"
  else Except.ok (fibonacci_naive n)

/-- Modelled from the spec: a two-failure variant of the test harness's
injected-failure compute function, used to exercise the propagation
policy when several workers of one batch fail: it fails on 2 and on 4
with distinct errors and otherwise behaves as the naive compute
function. -/
def compute_inj2 (n : Int) : Except String Int :=
  if n = 2 then Except.error "first failure"
  else if n = 4 then Except.error "second failure"
  else Except.ok (fibonacci_naive n)

/-- The clock and output of the `measure_time` decorator made explicit:
`clock` is the stream of upcoming `time.time()` readings, `log` the list
of elapsed metrics printed so far. -/
structure TimeState where
  clock : List Int
  log : List Int
deriving DecidableEq

/-- `time.time()`: pop the next clock reading (0 once exhausted). -/
def timeNow : TimeState → Int × TimeState
  | ⟨[], log⟩ => (0, ⟨[], log⟩)
  | ⟨t :: rest, log⟩ => (t, ⟨rest, log⟩)

/-- Embedding of the `measure_time` decorator's `wrapper` (identical in
both source files): read `start_time`, call the wrapped function — if it
raises, the exception propagates here and none of the remaining lines
run — otherwise read `end_time`, print the difference, and return the
wrapped function's result unchanged. -/
def measure_time {α β : Type} (func : α → Except String β) (a : α)
    (s : TimeState) : Except String β × TimeState :=
  let start_time := timeNow s
  match func a with
  | Except.error e => (Except.error e, start_time.2)
  | Except.ok result =>
    let end_time := timeNow start_time.2
    (Except.ok result,
      ⟨end_time.2.clock, end_time.2.log ++ [end_time.1 - start_time.1]⟩)

/-- Big-step graph of the naive recursion: `FibComputes n v` holds when
the recursive computation of `fibonacci_naive` at `n` has a finite
derivation ending in `v`. -/
inductive FibComputes : Int → Int → Prop
  | base (n : Int) : n <= 1 → FibComputes n n
  | step (n a b : Int) : ¬ n <= 1 → FibComputes (n - 1) a →
      FibComputes (n - 2) b → FibComputes n (a + b)

theorem fib_naive_ten : fibonacci_naive 10 = 55 := by
  rw [fib_naive_eq_iter 10 (by norm_num)]
  decide

/-- C1: for every input list and for both execution strategies, naive or
memoized, the returned result list is the element-wise map of the compute
function over the input list, in input order (for the memoized variants,
from any consistent shared cache, any task-to-process assignment and any
consistent per-process caches; the compute function's value is the naive
Fibonacci value in every case). -/
theorem c1_result_order (numbers : List Int) :
    multi_threaded_fibonacci_naive numbers = numbers.map fibonacci_naive ∧
    multi_process_fibonacci_naive numbers = numbers.map fibonacci_naive ∧
    (∀ c : Cache, Consistent c →
      (multi_threaded_fibonacci_memo numbers c).1 =
        numbers.map fibonacci_naive) ∧
    (∀ (assign : Nat → Nat) (st : Nat → Cache), (∀ p, Consistent (st p)) →
      (multi_process_fibonacci_memo numbers assign st).1 =
        numbers.map fibonacci_naive) := by
  refine ⟨rfl, rfl, ?_, ?_⟩
  · intro c hc
    exact (mapMemoShared_correct numbers c hc).1
  · intro assign st hst
    exact (mapMemoProcs_correct assign numbers 0 st hst).1

/-- C1 witness: the memoized thread strategy on `[10, 10, 10]` from the
empty cache returns `[55, 55, 55]`. -/
theorem c1_result_order_witness :
    (multi_threaded_fibonacci_memo [10, 10, 10] []).1 = [55, 55, 55] := by
  have h := (c1_result_order [10, 10, 10]).2.2.1 [] consistent_nil
  rw [h]
  simp [fib_naive_ten]

/-- C2: the naive compute function satisfies the Fibonacci recurrence
(`F 0 = 0`, `F 1 = 1`, `F n = F (n-1) + F (n-2)` for `n ≥ 2`), the
`fibonacci` of the other source file is the same function, on `[0, 30]`
it agrees with the independent iterative oracle, and input
`[0, 1, 2, 3, 4, 5]` yields `[0, 1, 1, 2, 3, 5]`. -/
theorem c2_fib_recurrence_oracle :
    fibonacci_naive 0 = 0 ∧ fibonacci_naive 1 = 1 ∧
    (∀ n : Int, 2 <= n →
      fibonacci_naive n = fibonacci_naive (n - 1) + fibonacci_naive (n - 2)) ∧
    (∀ n : Int, fibonacci n = fibonacci_naive n) ∧
    (∀ n : Int, 0 <= n → n <= 30 → fibonacci_naive n = fib_iter n.toNat) ∧
    List.map fibonacci_naive [0, 1, 2, 3, 4, 5] = [0, 1, 1, 2, 3, 5] := by
  refine ⟨?_, ?_, ?_, fibonacci_eq_naive, ?_, ?_⟩
  · rw [fibonacci_naive_eq]; norm_num
  · rw [fibonacci_naive_eq]; norm_num
  · intro n hn
    rw [fibonacci_naive_eq, if_neg (by omega)]
  · intro n h0 _
    exact fib_naive_eq_iter n h0
  · simp only [List.map_cons, List.map_nil]
    rw [fib_naive_eq_iter 0 (by norm_num), fib_naive_eq_iter 1 (by norm_num),
      fib_naive_eq_iter 2 (by norm_num), fib_naive_eq_iter 3 (by norm_num),
      fib_naive_eq_iter 4 (by norm_num), fib_naive_eq_iter 5 (by norm_num)]
    decide

/-- C2 witness: at `n = 30` the naive function equals the oracle value
832040. -/
theorem c2_fib_recurrence_oracle_witness : fibonacci_naive 30 = 832040 := by
  rw [c2_fib_recurrence_oracle.2.2.2.2.1 30 (by norm_num) (by norm_num)]
  decide

/-- C3: for every valid input `n ≥ 0` (and any consistent cache state, in
particular the empty cache the decorator starts from), the memoized
variant returns a value identical to the naive variant. -/
theorem c3_memo_eq_naive (n : Int) (c : Cache) (h0 : 0 <= n)
    (hc : Consistent c) : (fibonacci_memo n c).1 = fibonacci_naive n :=
  (memo_correct n c hc).1

/-- C3 witness: memoized and naive agree at `n = 10` from the empty
cache. -/
theorem c3_memo_eq_naive_witness :
    (fibonacci_memo 10 []).1 = fibonacci_naive 10 :=
  c3_memo_eq_naive 10 [] (by norm_num) consistent_nil

/-- C4 counterexample: the claim says input `[-1]` is rejected with an
InvalidInput error before any worker is dispatched, but the code performs
no input validation at all: the strategy (a total function) dispatches the
task, the worker computes `fibonacci (-1) = -1`, and the run completes
normally returning `[-1]`. -/
theorem c4_counterexample :
    multi_threaded_fibonacci [-1] = [-1] ∧
      multi_process_fibonacci [-1] = [-1] := by
  have hf : fibonacci (-1) = -1 := by
    rw [fibonacci_eq, if_pos (by norm_num)]
  constructor <;>
    simp [multi_threaded_fibonacci, multi_process_fibonacci, executorMap, hf]

/-- C4 amended: input lists containing a negative integer are not rejected
and no InvalidInput error exists; the batch is dispatched and executes
fully, the worker returning `fibonacci n = n` for each negative `n`. -/
theorem c4_negative_not_rejected (n : Int) (h : n < 0) :
    multi_threaded_fibonacci [n] = [n] ∧ multi_process_fibonacci [n] = [n] := by
  have hf : fibonacci n = n := by
    rw [fibonacci_eq, if_pos (by omega)]
  constructor <;>
    simp [multi_threaded_fibonacci, multi_process_fibonacci, executorMap, hf]

/-- C4 amended witness: the run on `[-5]` completes normally with
`[-5]`. -/
theorem c4_negative_not_rejected_witness :
    multi_threaded_fibonacci [-5] = [-5] ∧
      multi_process_fibonacci [-5] = [-5] :=
  c4_negative_not_rejected (-5) (by norm_num)

/-- C5 counterexample: with the spec's injected failure at 999999, the run
on `[5, 999999, 7]` (failing index 1) and the run on `[999999, 5, 7]`
(failing index 0) propagate the identical run-level failure — the
worker's own exception, unchanged — so the propagated failure does not
identify the failing task's index, contrary to the claim. -/
theorem c5_counterexample :
    executorMapE compute_inj [5, 999999, 7] =
        Except.error "injected failure" ∧
      executorMapE compute_inj [999999, 5, 7] =
        Except.error "injected failure" := by
  constructor <;> rfl

/-- When `executorMapE` fails, the propagated error is the one raised by
the input-order-first failing worker: there is a failing index whose
worker raised exactly that error, and every worker at an earlier index
succeeded. -/
theorem executorMapE_error_first (f : Int → Except String Int)
    (l : List Int) (e : String) (h : executorMapE f l = Except.error e) :
    ∃ i : Nat, ∃ hi : i < l.length,
      f (l.get ⟨i, hi⟩) = Except.error e ∧
        ∀ j : Nat, ∀ hj : j < l.length, j < i →
          ∃ v, f (l.get ⟨j, hj⟩) = Except.ok v := by
  induction l generalizing e with
  | nil => cases h
  | cons n rest ih =>
    simp only [executorMapE] at h
    cases hfn : f n with
    | error e2 =>
      rw [hfn] at h
      cases h
      refine ⟨0, by simp, hfn, ?_⟩
      intro j hj hj0
      omega
    | ok v =>
      rw [hfn] at h
      cases hrest : executorMapE f rest with
      | error e2 =>
        rw [hrest] at h
        cases h
        obtain ⟨i, hi, hfi, hbefore⟩ := ih _ hrest
        refine ⟨i + 1, by simp only [List.length_cons]; omega, hfi, ?_⟩
        intro j hj hlt
        cases j with
        | zero => exact ⟨v, hfn⟩
        | succ j2 =>
          have hj2 : j2 < rest.length := by
            simp only [List.length_cons] at hj
            omega
          exact hbefore j2 hj2 (by omega)
      | ok vs => rw [hrest] at h; cases h

/-- C5 amended: if any worker's computation raises, the strategy fails as
a whole — a result list is returned only when every worker succeeded, so
no partial result list, no dropped slot and no substituted default — and
the run-level failure is the input-order-first failing worker's own error
propagated unchanged (there is a failing index carrying exactly that
error, with every earlier worker succeeding); it does not itself carry
the failing task's index.  Concretely, the injected failure on
`[5, 999999, 7]` propagates, and with two distinct injected failures at
indices 1 and 2 of `[5, 2, 4]` the run propagates the first one. -/
theorem c5_fail_fast_propagate :
    (∀ (f : Int → Except String Int) (l vs : List Int),
      executorMapE f l = Except.ok vs → ∀ x ∈ l, ∃ v, f x = Except.ok v) ∧
    (∀ (f : Int → Except String Int) (l : List Int) (e : String),
      executorMapE f l = Except.error e →
        ∃ i : Nat, ∃ hi : i < l.length,
          f (l.get ⟨i, hi⟩) = Except.error e ∧
            ∀ j : Nat, ∀ hj : j < l.length, j < i →
              ∃ v, f (l.get ⟨j, hj⟩) = Except.ok v) ∧
    executorMapE compute_inj [5, 999999, 7] =
      Except.error "injected failure" ∧
    executorMapE compute_inj2 [5, 2, 4] = Except.error "first failure" := by
  refine ⟨?_, executorMapE_error_first, rfl, rfl⟩
  intro f l
  induction l with
  | nil => intro vs _ x hx; cases hx
  | cons n rest ih =>
    intro vs h x hx
    simp only [executorMapE] at h
    cases hfn : f n with
    | error e => rw [hfn] at h; cases h
    | ok v =>
      rw [hfn] at h
      cases hrest : executorMapE f rest with
      | error e => rw [hrest] at h; cases h
      | ok vs2 =>
        rw [hrest] at h
        cases hx with
        | head => exact ⟨v, hfn⟩
        | tail _ hx2 => exact ih vs2 hrest x hx2

/-- C5 amended witness: on the two-failure run `[5, 2, 4]` (workers at
indices 1 and 2 raise distinct errors), the propagated failure "first
failure" is located at a failing index all of whose predecessors
succeeded. -/
theorem c5_fail_fast_propagate_witness :
    ∃ i : Nat, ∃ hi : i < ([5, 2, 4] : List Int).length,
      compute_inj2 (([5, 2, 4] : List Int).get ⟨i, hi⟩) =
          Except.error "first failure" ∧
        ∀ j : Nat, ∀ hj : j < ([5, 2, 4] : List Int).length, j < i →
          ∃ v, compute_inj2 (([5, 2, 4] : List Int).get ⟨j, hj⟩) =
            Except.ok v :=
  c5_fail_fast_propagate.2.1 compute_inj2 [5, 2, 4] "first failure" rfl

theorem timeNow_log (s : TimeState) : (timeNow s).2.log = s.log := by
  obtain ⟨clock, log⟩ := s
  cases clock <;> rfl

/-- C6 counterexample: the claim says `measure_time` records a second
timestamp and reports the elapsed-time metric on propagated failure just
as on success, but when the wrapped call raises, the wrapper's remaining
lines never run: starting from clock stream `[3, 7]`, only the reading 3
is consumed (7 is still pending) and the log stays empty — no end
timestamp, no metric — while the error propagates unchanged. -/
theorem c6_counterexample :
    measure_time (fun _ : Unit => (Except.error "boom" : Except String Int))
      () ⟨[3, 7], []⟩ = (Except.error "boom", ⟨[7], []⟩) := rfl

/-- C6 amended: `measure_time` is transparent as to value and error — it
returns exactly the wrapped function's value and propagates exactly its
error; on success it reads a timestamp immediately before and after the
call and reports only their difference as the metric; on propagated
failure it has read only the starting timestamp and reports no metric. -/
theorem c6_measure_time_transparent {α β : Type} (func : α → Except String β)
    (a : α) (s : TimeState) :
    (measure_time func a s).1 = func a ∧
    (∀ r, func a = Except.ok r → (measure_time func a s).2 =
      ⟨(timeNow (timeNow s).2).2.clock,
        s.log ++ [(timeNow (timeNow s).2).1 - (timeNow s).1]⟩) ∧
    (∀ e, func a = Except.error e →
      (measure_time func a s).2 = (timeNow s).2) := by
  refine ⟨?_, ?_, ?_⟩
  · cases hfa : func a with
    | error e => simp [measure_time, hfa]
    | ok r => simp [measure_time, hfa]
  · intro r hr
    simp [measure_time, hr, timeNow_log]
  · intro e he
    simp [measure_time, he]

/-- C6 amended witness: on a successful call with clock readings 3 then
7, the wrapper returns the wrapped value and the log gains the single
metric `7 - 3 = 4`. -/
theorem c6_measure_time_transparent_witness :
    (measure_time (fun _ : Unit => (Except.ok 42 : Except String Int)) ()
      ⟨[3, 7], []⟩).2 = ⟨[], [4]⟩ := by
  rw [(c6_measure_time_transparent
    (fun _ : Unit => (Except.ok 42 : Except String Int)) ()
    ⟨[3, 7], []⟩).2.1 42 rfl]
  decide

/-- C7: across every sequence of memoized computations on the shared
cache, a cache entry once written is never changed and never evicted:
any key-value pair present before a whole batch is still present, with
the same value, after it. -/
theorem c7_cache_write_once_no_evict (ops : List Int) (c : Cache)
    (k v : Int) (h : cacheLookup c k = some v) :
    cacheLookup (multi_threaded_fibonacci_memo ops c).2 k = some v :=
  mapMemoShared_preserves ops c k v h

/-- C7 witness: the entry `2 ↦ 1` survives the batch `[10, 3]`
unchanged. -/
theorem c7_cache_write_once_no_evict_witness :
    cacheLookup (multi_threaded_fibonacci_memo [10, 3] [(2, 1)]).2 2 =
      some 1 :=
  c7_cache_write_once_no_evict [10, 3] [(2, 1)] 2 1 rfl

/-- C8: idempotence of both compute variants — the naive variant is a
pure function, and invoking the memoized variant twice with the same `n`
in the same cache scope returns the same value both times; in
particular, input `[10, 10, 10]` under the memoized variant yields
`[55, 55, 55]`. -/
theorem c8_idempotent :
    (∀ n : Int, fibonacci_naive n = fibonacci_naive n) ∧
    (∀ (n : Int) (c : Cache), Consistent c →
      (fibonacci_memo n (fibonacci_memo n c).2).1 = (fibonacci_memo n c).1) ∧
    (multi_threaded_fibonacci_memo [10, 10, 10] []).1 = [55, 55, 55] := by
  refine ⟨fun n => rfl, ?_, ?_⟩
  · intro n c hc
    obtain ⟨h1, hc1⟩ := memo_correct n c hc
    obtain ⟨h2, _⟩ := memo_correct n (fibonacci_memo n c).2 hc1
    rw [h1, h2]
  · show (mapMemoShared [10, 10, 10] []).1 = [55, 55, 55]
    rw [(mapMemoShared_correct [10, 10, 10] [] consistent_nil).1]
    simp [fib_naive_ten]

/-- C8 witness: at `n = 10` from the empty cache, the second memoized
invocation returns the same value as the first. -/
theorem c8_idempotent_witness :
    (fibonacci_memo 10 (fibonacci_memo 10 []).2).1 =
      (fibonacci_memo 10 []).1 :=
  c8_idempotent.2.1 10 [] consistent_nil

/-- C9: for every integer `n ≤ 1`, negative included, both compute
functions return `n` itself — neither performs any input validation and
neither can raise. -/
theorem c9_base_case_identity (n : Int) (h : n <= 1) :
    fibonacci_naive n = n ∧ fibonacci n = n := by
  constructor
  · rw [fibonacci_naive_eq, if_pos h]
  · rw [fibonacci_eq, if_pos h]

/-- C9 witness: input `-5` returns `-5` from both functions. -/
theorem c9_base_case_identity_witness :
    fibonacci_naive (-5) = -5 ∧ fibonacci (-5) = -5 :=
  c9_base_case_identity (-5) (by norm_num)

/-- C10: the naive recursion terminates on every integer input — for each
`n`, positive or negative, the big-step recursion graph has a finite
derivation, and its value is what `fibonacci_naive` (and `fibonacci`)
returns. -/
theorem c10_terminates (n : Int) :
    FibComputes n (fibonacci_naive n) ∧ FibComputes n (fibonacci n) := by
  have hnaive : ∀ m : Int, FibComputes m (fibonacci_naive m) := by
    intro m
    induction m using fibonacci_naive.induct with
    | case1 x hx =>
      rw [fibonacci_naive_eq, if_pos hx]
      exact FibComputes.base x hx
    | case2 x hx ih1 ih2 =>
      rw [fibonacci_naive_eq, if_neg hx]
      exact FibComputes.step x _ _ hx ih1 ih2
  refine ⟨hnaive n, ?_⟩
  rw [fibonacci_eq_naive]
  exact hnaive n
